import Mathlib

/-!
# Verification of `algoritimoST.py`

A shallow embedding of the randomized reachability program `algoritimoST.py`:
a graph is an adjacency matrix (`List (List Nat)`), `random_walk` performs a
bounded random walk recording each visited vertex's predecessor, and
`existe_caminho` validates the query, runs the walk and reconstructs the path
on success.

Modelling decisions:

* The Python dictionary `visitados` is an insertion-ordered association list
  (`PredMap`); `pmSet` mirrors dict assignment (replace in place, else append),
  `pmMem` mirrors `in`, and `pmGet` mirrors `dict.get` with default `None`
  (a missing key and a stored `None` collapse to the same sentinel, exactly as
  in the Python reconstruction loop).
* `random.choice(vizinhos)` is modelled by an injected choice source
  `rnd : Nat → Nat`, sampled at the current step counter and reduced modulo the
  number of neighbours; quantifying over `rnd` covers every possible sequence
  of neighbour choices.
* The `while i < 2*(n**3)` loop of `random_walk` is implemented by structural
  recursion on the remaining permitted iterations `2*n^3 - i` (the loop always
  terminates because `i` increases by 1 each pass).
* The `while atual is not None` loop of `reconstruir_caminho` need NOT
  terminate on an arbitrary predecessor map (the links may form a cycle), so it
  is given the fuel `visitados.length + 1`, which is enough for every
  terminating run of the Python loop (a terminating chain passes through
  pairwise distinct keys of the map); a `none` result therefore models a run of
  the Python loop that never reaches the sentinel, i.e. divergence
  (see `reconstruirLoop_two_cycle`).
-/

/-- A graph is an adjacency matrix: row `i`, column `j` holds `1` iff there is
an edge from vertex `i` to vertex `j`. -/
abbrev Graph := List (List Nat)

/-- The dictionary `visitados`: an insertion-ordered association list from a
visited vertex to its recorded predecessor; `none` is the sentinel (Python
`None`) marking the walk's origin. -/
abbrev PredMap := List (Nat × Option Nat)

/-- Lookup of the value stored for key `k` (`none` when `k` is not a key). -/
def pmLookup (visitados : PredMap) (k : Nat) : Option (Option Nat) :=
  List.lookup k visitados

/-- Python `k in visitados`. -/
def pmMem (visitados : PredMap) (k : Nat) : Bool :=
  (pmLookup visitados k).isSome

/-- Python `visitados.get(k)` (default `None`): a missing key and a stored
`None` both give the sentinel. -/
def pmGet (visitados : PredMap) (k : Nat) : Option Nat :=
  (pmLookup visitados k).getD none

/-- Python `visitados[k] = v`: replace the value in place when the key is
present, otherwise append the new binding (dict insertion order). -/
def pmSet : PredMap → Nat → Option Nat → PredMap
  | [], k, v => [(k, v)]
  | (k', v') :: rest, k, v =>
    if k' = k then (k, v) :: rest else (k', v') :: pmSet rest k v

/-- The keys of the map, in insertion order. -/
def pmKeys (visitados : PredMap) : List Nat :=
  visitados.map Prod.fst

/-- Source line 86:
`vizinhos = [idx for idx, conectado in enumerate(grafo[atual]) if conectado == 1]`. -/
def vizinhosDe (grafo : Graph) (atual : Nat) : List Nat :=
  (((grafo.getD atual []).enum).filter (fun p => p.2 == 1)).map Prod.fst

/-- The body of the `while atual is not None` loop of `reconstruir_caminho`
(source lines 34-39): append the current vertex, move to `visitados.get(atual)`.
`fuel` bounds the number of loop passes; `none` means the Python loop would not
have reached the sentinel within `fuel` passes. -/
def reconstruirLoop (visitados : PredMap) :
    Nat → Option Nat → List Nat → Option (List Nat)
  | _, none, caminho => some caminho.reverse
  | 0, some _, _ => none
  | fuel + 1, some atual, caminho =>
    reconstruirLoop visitados fuel (pmGet visitados atual) (caminho ++ [atual])

/-- `reconstruir_caminho(visitados, vertice_final)` (source lines 3-40).
A terminating run of the Python loop passes through pairwise distinct keys of
`visitados`, hence takes at most `visitados.length + 1` passes, so that fuel is
sufficient; `none` models a diverging run of the Python loop. -/
def reconstruir_caminho (visitados : PredMap) (vertice_final : Nat) :
    Option (List Nat) :=
  reconstruirLoop visitados (visitados.length + 1) (some vertice_final) []

/-- Source lines 83-84: record `atual` with predecessor `antecessor` on first
visit only (`if atual not in visitados: visitados[atual] = antecessor`). -/
def registraVisita (visitados : PredMap) (atual : Nat) (antecessor : Option Nat) :
    PredMap :=
  if pmMem visitados atual then visitados else pmSet visitados atual antecessor

/-- Source line 90: `vizinho = random.choice(vizinhos)`, with the random source
modelled as an arbitrary function of the step counter; `rnd i % len` reaches
every index of the neighbour list, so quantifying over `rnd` covers every
possible choice sequence. -/
def escolheVizinho (rnd : Nat → Nat) (grafo : Graph) (atual : Nat) (i : Nat) :
    Nat :=
  (vizinhosDe grafo atual).getD (rnd i % (vizinhosDe grafo atual).length) 0

/-- The `while i < 2*(n**3)` loop of `random_walk` (source lines 82-97), by
structural recursion on the number `fuel` of loop passes still permitted by the
cap (`2*n^3 - i` at entry): record the current vertex on first visit, stop with
`False` at a dead end, stop with `True` (overwriting the target's entry) when
the chosen neighbour is the target, else advance and repeat with `i + 1`. -/
def random_walk_aux (rnd : Nat → Nat) (grafo : Graph) (vertice_final : Nat) :
    Nat → PredMap → Nat → Option Nat → Nat → Bool × PredMap × Nat
  | 0, visitados, _, _, i => (false, visitados, i)
  | fuel + 1, visitados, atual, antecessor, i =>
    if vizinhosDe grafo atual = [] then
      (false, registraVisita visitados atual antecessor, i)
    else if escolheVizinho rnd grafo atual i = vertice_final then
      (true,
        pmSet (registraVisita visitados atual antecessor)
          (escolheVizinho rnd grafo atual i) (some atual),
        i + 1)
    else
      random_walk_aux rnd grafo vertice_final fuel
        (registraVisita visitados atual antecessor)
        (escolheVizinho rnd grafo atual i) (some atual) (i + 1)

/-- `random_walk(visitados, grafo, atual, antecessor, vertice_final, i, n)`
(source lines 42-97): the loop runs while `i < 2*(n**3)`, so exactly
`2*n^3 - i` further passes are permitted when entering with counter `i`;
when the cap is already reached it returns `(False, visitados, i)`. -/
def random_walk (rnd : Nat → Nat) (visitados : PredMap) (grafo : Graph)
    (atual : Nat) (antecessor : Option Nat) (vertice_final : Nat) (i n : Nat) :
    Bool × PredMap × Nat :=
  random_walk_aux rnd grafo vertice_final (2 * n ^ 3 - i) visitados atual antecessor i

/-- `existe_caminho(grafo, vertice_inicial, vertice_final)` (source lines
99-141): reject out-of-range indices with `(False, [], 0)`, otherwise walk from
the start with predecessor `None` and counter `0`, and on success reconstruct
the path.  The result is `none` exactly when the reconstruction loop diverges
(never reaches the sentinel); in every other case it is `some` of the Python
return value. -/
def existe_caminho (rnd : Nat → Nat) (grafo : Graph)
    (vertice_inicial vertice_final : Int) : Option (Bool × List Nat × Nat) :=
  if vertice_inicial < 0 ∨ vertice_inicial ≥ (grafo.length : Int) ∨
      vertice_final < 0 ∨ vertice_final ≥ (grafo.length : Int) then
    some (false, [], 0)
  else
    match random_walk rnd [] grafo vertice_inicial.toNat none
        vertice_final.toNat 0 grafo.length with
    | (true, visitados, i) =>
      match reconstruir_caminho visitados vertice_final.toNat with
      | some caminho => some (true, caminho, i)
      | none => none
    | (false, _, i) => some (false, [], i)

/-! ## Elementary facts about the predecessor map -/

theorem pmLookup_cons (k' : Nat) (v' : Option Nat) (rest : PredMap) (k : Nat) :
    pmLookup ((k', v') :: rest) k = if k = k' then some v' else pmLookup rest k := by
  by_cases h : k = k'
  · subst h
    simp [pmLookup, List.lookup]
  · have hb : (k == k') = false := by simp [h]
    simp [pmLookup, List.lookup, hb, h]

theorem pmLookup_pmSet_self (m : PredMap) (k : Nat) (v : Option Nat) :
    pmLookup (pmSet m k v) k = some v := by
  induction m with
  | nil => simp [pmSet, pmLookup_cons]
  | cons hd tl ih =>
    obtain ⟨k', v'⟩ := hd
    by_cases h : k' = k
    · simp [pmSet, h, pmLookup_cons]
    · have h' : k ≠ k' := fun hh => h hh.symm
      simp [pmSet, h, pmLookup_cons, h', ih]

theorem pmLookup_pmSet_ne (m : PredMap) (k : Nat) (v : Option Nat) (x : Nat)
    (hx : x ≠ k) : pmLookup (pmSet m k v) x = pmLookup m x := by
  induction m with
  | nil => simp [pmSet, pmLookup_cons, hx, pmLookup]
  | cons hd tl ih =>
    obtain ⟨k', v'⟩ := hd
    by_cases h : k' = k
    · subst h
      simp [pmSet, pmLookup_cons, hx]
    · simp [pmSet, h, pmLookup_cons, ih]

theorem pmSet_of_not_mem (m : PredMap) (k : Nat) (v : Option Nat)
    (h : pmMem m k = false) : pmSet m k v = m ++ [(k, v)] := by
  induction m with
  | nil => simp [pmSet]
  | cons hd tl ih =>
    obtain ⟨k', v'⟩ := hd
    rw [pmMem, pmLookup_cons] at h
    by_cases hk : k = k'
    · rw [if_pos hk] at h
      simp at h
    · rw [if_neg hk] at h
      have h' : k' ≠ k := fun hh => hk hh.symm
      have htl : pmMem tl k = false := h
      simp [pmSet, h', ih htl]

theorem pmMem_iff_mem_keys (m : PredMap) (k : Nat) :
    pmMem m k = true ↔ k ∈ pmKeys m := by
  induction m with
  | nil => simp [pmMem, pmLookup, pmKeys]
  | cons hd tl ih =>
    obtain ⟨k', v'⟩ := hd
    rw [pmMem, pmLookup_cons]
    by_cases h : k = k'
    · simp [h, pmKeys]
    · rw [if_neg h]
      have hmem : k ∈ pmKeys ((k', v') :: tl) ↔ k ∈ pmKeys tl := by
        simp [pmKeys, h]
      rw [hmem, ← ih]
      exact Iff.rfl

theorem pmLookup_mem (m : PredMap) (k : Nat) (v : Option Nat)
    (h : pmLookup m k = some v) : (k, v) ∈ m := by
  induction m with
  | nil => simp [pmLookup] at h
  | cons hd tl ih =>
    obtain ⟨k', v'⟩ := hd
    rw [pmLookup_cons] at h
    by_cases hk : k = k'
    · simp [hk] at h
      simp [hk, h]
    · simp [hk] at h
      simp [ih h]

theorem pmLookup_eq_of_mem (m : PredMap) (k : Nat) (v : Option Nat)
    (hnd : (pmKeys m).Nodup) (h : (k, v) ∈ m) : pmLookup m k = some v := by
  induction m with
  | nil => simp at h
  | cons hd tl ih =>
    obtain ⟨k', v'⟩ := hd
    simp only [pmKeys, List.map_cons, List.nodup_cons] at hnd
    rcases List.mem_cons.mp h with h1 | h1
    · rw [Prod.mk.injEq] at h1
      rw [pmLookup_cons, if_pos h1.1, h1.2]
    · have hk : k ≠ k' := by
        intro hk
        subst hk
        exact hnd.1 (by simpa [pmKeys] using List.mem_map_of_mem Prod.fst h1)
      rw [pmLookup_cons, if_neg hk]
      exact ih hnd.2 h1

theorem pmGet_eq_some_lookup (m : PredMap) (k : Nat) (u : Nat)
    (h : pmGet m k = some u) : pmLookup m k = some (some u) := by
  unfold pmGet at h
  cases hl : pmLookup m k with
  | none => rw [hl] at h; simp at h
  | some w => rw [hl] at h; simp at h; rw [h]

theorem pmGet_of_not_mem (m : PredMap) (k : Nat) (h : pmMem m k = false) :
    pmGet m k = none := by
  unfold pmMem at h
  unfold pmGet
  cases hl : pmLookup m k with
  | none => rfl
  | some w => rw [hl] at h; simp at h

/-! ## The shape of the maps built by a walk -/

/-- Every binding of the map stores either the sentinel or a key recorded
strictly earlier in insertion order.  Maps built by a walk have this shape,
which makes the predecessor links acyclic. -/
def sortedPred (m : PredMap) : Prop :=
  ∀ i, ∀ hi : i < m.length, ∀ u, (m.get ⟨i, hi⟩).2 = some u →
    ∃ j, ∃ hj : j < m.length, j < i ∧ (m.get ⟨j, hj⟩).1 = u

theorem sortedPred_nil : sortedPred [] := by
  intro i hi
  simp at hi

theorem mem_keys_get (m : PredMap) (k : Nat) (h : k ∈ pmKeys m) :
    ∃ i, ∃ hi : i < m.length, (m.get ⟨i, hi⟩).1 = k := by
  unfold pmKeys at h
  obtain ⟨p, hp, rfl⟩ := List.mem_map.mp h
  obtain ⟨⟨i, hi⟩, rfl⟩ := List.mem_iff_get.mp hp
  exact ⟨i, hi, rfl⟩

theorem pmKeys_append (m : PredMap) (k : Nat) (v : Option Nat) :
    pmKeys (m ++ [(k, v)]) = pmKeys m ++ [k] := by
  simp [pmKeys]

theorem nodup_keys_append (m : PredMap) (k : Nat) (v : Option Nat)
    (hnd : (pmKeys m).Nodup) (hk : pmMem m k = false) :
    (pmKeys (m ++ [(k, v)])).Nodup := by
  rw [pmKeys_append, List.nodup_append]
  refine ⟨hnd, List.nodup_singleton k, ?_⟩
  intro a ha hb
  rw [List.mem_singleton] at hb
  subst hb
  rw [← pmMem_iff_mem_keys] at ha
  rw [ha] at hk
  simp at hk

theorem sortedPred_append (m : PredMap) (k : Nat) (v : Option Nat)
    (hs : sortedPred m) (hv : ∀ u, v = some u → u ∈ pmKeys m) :
    sortedPred (m ++ [(k, v)]) := by
  intro i hi u hu
  have hlen : (m ++ [(k, v)]).length = m.length + 1 := by simp
  by_cases h : i < m.length
  · rw [List.get_append i h] at hu
    obtain ⟨j, hj, hji, hkey⟩ := hs i h u hu
    refine ⟨j, by simp; omega, hji, ?_⟩
    rw [List.get_append j hj]
    exact hkey
  · have hieq : i = m.length := by rw [hlen] at hi; omega
    subst hieq
    have hget : (m ++ [(k, v)]).get ⟨m.length, hi⟩ = (k, v) :=
      List.get_of_append rfl rfl
    rw [hget] at hu
    obtain ⟨j, hj, hkey⟩ := mem_keys_get m u (hv u hu)
    refine ⟨j, by simp; omega, hj, ?_⟩
    rw [List.get_append j hj]
    exact hkey

theorem sorted_value_mem (m : PredMap) (k u : Nat) (hs : sortedPred m)
    (h : (k, some u) ∈ m) : u ∈ pmKeys m := by
  obtain ⟨⟨i, hi⟩, hget⟩ := List.mem_iff_get.mp h
  have : (m.get ⟨i, hi⟩).2 = some u := by rw [hget]
  obtain ⟨j, hj, _, hkey⟩ := hs i hi u this
  rw [← hkey]
  exact List.mem_map_of_mem Prod.fst (List.get_mem m j hj)

/-! ## Behaviour of the reconstruction loop -/

theorem reconstruirLoop_none (m : PredMap) (fuel : Nat) (acc : List Nat) :
    reconstruirLoop m fuel none acc = some acc.reverse := by
  cases fuel <;> rfl

theorem reconstruirLoop_mono (m : PredMap) (fuel fuel' : Nat) (s : Option Nat)
    (acc p : List Nat) (hle : fuel ≤ fuel')
    (h : reconstruirLoop m fuel s acc = some p) :
    reconstruirLoop m fuel' s acc = some p := by
  induction fuel generalizing fuel' s acc with
  | zero =>
    cases s with
    | none => rw [reconstruirLoop_none] at h ⊢; exact h
    | some a => simp [reconstruirLoop] at h
  | succ f ih =>
    cases s with
    | none => rw [reconstruirLoop_none] at h ⊢; exact h
    | some a =>
      obtain ⟨f', rfl⟩ : ∃ f', fuel' = f' + 1 := ⟨fuel' - 1, by omega⟩
      rw [reconstruirLoop] at h ⊢
      exact ih f' (pmGet m a) (acc ++ [a]) (by omega) h

theorem reconstruirLoop_term (m : PredMap) (hnd : (pmKeys m).Nodup)
    (hs : sortedPred m) :
    ∀ i, ∀ hi : i < m.length, ∀ acc : List Nat, ∃ p,
      reconstruirLoop m (i + 1 + 1) (some ((m.get ⟨i, hi⟩).1)) acc = some p := by
  intro i
  induction i using Nat.strong_induction_on with
  | _ i ih =>
    intro hi acc
    have hmem : ((m.get ⟨i, hi⟩).1, (m.get ⟨i, hi⟩).2) ∈ m := by
      rw [Prod.mk.eta]
      exact List.get_mem m i hi
    have hlook : pmLookup m (m.get ⟨i, hi⟩).1 = some (m.get ⟨i, hi⟩).2 :=
      pmLookup_eq_of_mem m _ _ hnd hmem
    cases hv : (m.get ⟨i, hi⟩).2 with
    | none =>
      have hg : pmGet m (m.get ⟨i, hi⟩).1 = none := by
        rw [pmGet, hlook, hv]
        rfl
      refine ⟨(acc ++ [(m.get ⟨i, hi⟩).1]).reverse, ?_⟩
      rw [reconstruirLoop, hg, reconstruirLoop_none]
    | some u =>
      obtain ⟨j, hj, hji, hkey⟩ := hs i hi u hv
      have hg : pmGet m (m.get ⟨i, hi⟩).1 = some u := by
        rw [pmGet, hlook, hv]
        rfl
      obtain ⟨p, hp⟩ := ih j hji hj (acc ++ [(m.get ⟨i, hi⟩).1])
      rw [hkey] at hp
      refine ⟨p, ?_⟩
      rw [reconstruirLoop, hg]
      exact reconstruirLoop_mono m (j + 1 + 1) (i + 1) _ _ _ (by omega) hp

theorem reconstruirLoop_spec (m : PredMap) :
    ∀ fuel a acc p, reconstruirLoop m fuel (some a) acc = some p →
      ∃ q h, p = q ++ acc.reverse ∧ q.head? = some h ∧ q.getLast? = some a ∧
        pmGet m h = none ∧ List.Chain' (fun x y => pmGet m y = some x) q := by
  intro fuel
  induction fuel with
  | zero =>
    intro a acc p h
    simp [reconstruirLoop] at h
  | succ f ih =>
    intro a acc p h
    rw [reconstruirLoop] at h
    cases hg : pmGet m a with
    | none =>
      rw [hg, reconstruirLoop_none] at h
      have hp : p = (acc ++ [a]).reverse := (Option.some.injEq _ _ ▸ h).symm
      refine ⟨[a], a, ?_, rfl, rfl, hg, List.chain'_singleton a⟩
      rw [hp]
      simp
    | some b =>
      rw [hg] at h
      obtain ⟨q', h', hp, hh, hl, hgn, hc⟩ := ih b (acc ++ [a]) p h
      refine ⟨q' ++ [a], h', ?_, ?_, List.getLast?_concat q', hgn, ?_⟩
      · rw [hp]
        simp
      · cases q' with
        | nil => simp at hh
        | cons x xs => simpa using hh
      · rw [List.chain'_append]
        refine ⟨hc, List.chain'_singleton a, ?_⟩
        intro x hx y hy
        rw [hl, Option.mem_def] at hx
        simp at hy
        subst hy
        rw [Option.some.injEq] at hx
        subst hx
        exact hg

theorem reconstruirLoop_two_cycle (m : PredMap) (a b : Nat)
    (hab : pmGet m a = some b) (hba : pmGet m b = some a) :
    ∀ fuel acc, reconstruirLoop m fuel (some a) acc = none := by
  intro fuel
  induction fuel using Nat.strong_induction_on with
  | _ fuel ih =>
    intro acc
    match fuel with
    | 0 => rfl
    | 1 =>
      show reconstruirLoop m 0 (pmGet m a) (acc ++ [a]) = none
      rw [hab]
      rfl
    | f + 2 =>
      show reconstruirLoop m (f + 1) (pmGet m a) (acc ++ [a]) = none
      rw [hab]
      show reconstruirLoop m f (pmGet m b) (acc ++ [a] ++ [b]) = none
      rw [hba]
      exact ih f (by omega) (acc ++ [a] ++ [b])

/-! ## Neighbour lists -/

theorem mem_vizinhosDe (grafo : Graph) (a b : Nat)
    (h : b ∈ vizinhosDe grafo a) : (grafo.getD a []).getD b 0 = 1 := by
  unfold vizinhosDe at h
  obtain ⟨⟨i, x⟩, hmem, hfst⟩ := List.mem_map.mp h
  have h2 := List.mem_filter.mp hmem
  have hx : x = 1 := by simpa using h2.2
  have henum : (grafo.getD a [])[i]? = some x :=
    List.mk_mem_enum_iff_getElem?.mp h2.1
  have hib : i = b := hfst
  subst hib
  rw [List.getD_eq_getElem?_getD, henum, hx]
  rfl

theorem escolheVizinho_mem (rnd : Nat → Nat) (grafo : Graph) (atual i : Nat)
    (h : vizinhosDe grafo atual ≠ []) :
    escolheVizinho rnd grafo atual i ∈ vizinhosDe grafo atual := by
  unfold escolheVizinho
  have hlen : 0 < (vizinhosDe grafo atual).length := List.length_pos.mpr h
  have hlt : rnd i % (vizinhosDe grafo atual).length <
      (vizinhosDe grafo atual).length := Nat.mod_lt _ hlen
  rw [List.getD_eq_get _ _ hlt]
  exact List.get_mem _ _ hlt

/-! ## Recording a visit -/

theorem pmMem_registraVisita_self (m : PredMap) (a : Nat) (ant : Option Nat) :
    pmMem (registraVisita m a ant) a = true := by
  unfold registraVisita
  by_cases h : pmMem m a
  · rw [if_pos h]
    exact h
  · rw [if_neg h, pmMem, pmLookup_pmSet_self]
    rfl

theorem pmMem_pmSet_mono (m : PredMap) (k : Nat) (w : Option Nat) (v : Nat)
    (hv : pmMem m v = true) : pmMem (pmSet m k w) v = true := by
  by_cases h : v = k
  · subst h
    rw [pmMem, pmLookup_pmSet_self]
    rfl
  · rw [pmMem, pmLookup_pmSet_ne m k w v h]
    exact hv

theorem pmMem_registraVisita_mono (m : PredMap) (a : Nat) (ant : Option Nat)
    (v : Nat) (hv : pmMem m v = true) :
    pmMem (registraVisita m a ant) v = true := by
  unfold registraVisita
  by_cases h : pmMem m a
  · rw [if_pos h]
    exact hv
  · rw [if_neg h]
    exact pmMem_pmSet_mono m a ant v hv

theorem pmLookup_registraVisita_of_mem (m : PredMap) (a : Nat)
    (ant : Option Nat) (v : Nat) (hv : pmMem m v = true) :
    pmLookup (registraVisita m a ant) v = pmLookup m v := by
  unfold registraVisita
  by_cases h : pmMem m a
  · rw [if_pos h]
  · rw [if_neg h]
    have hne : v ≠ a := by
      intro hh
      subst hh
      rw [hv] at h
      exact h rfl
    exact pmLookup_pmSet_ne m a ant v hne

/-! ## The walk: counter and bookkeeping facts needing no map invariant -/

theorem random_walk_aux_basic (rnd : Nat → Nat) (grafo : Graph) (vf : Nat) :
    ∀ fuel visitados atual antecessor i found m' i',
      random_walk_aux rnd grafo vf fuel visitados atual antecessor i =
        (found, m', i') →
      i ≤ i' ∧ i' ≤ i + fuel ∧
      (found = true → i < i' ∧ ∃ u, pmLookup m' vf = some (some u)) ∧
      (found = false →
        i' = i + fuel ∨ ∃ v, pmMem m' v = true ∧ vizinhosDe grafo v = []) ∧
      (∀ v, pmMem visitados v = true → pmMem m' v = true) ∧
      (∀ v, v ≠ vf → pmMem visitados v = true →
        pmLookup m' v = pmLookup visitados v) := by
  intro fuel
  induction fuel with
  | zero =>
    intro visitados atual antecessor i found m' i' h
    simp only [random_walk_aux, Prod.mk.injEq] at h
    obtain ⟨hf, hm, hi⟩ := h
    subst hf
    subst hm
    subst hi
    exact ⟨le_refl i, by omega, by simp, fun _ => Or.inl (by omega),
      fun v hv => hv, fun v _ _ => rfl⟩
  | succ f ih =>
    intro visitados atual antecessor i found m' i' h
    simp only [random_walk_aux] at h
    by_cases hdead : vizinhosDe grafo atual = []
    · rw [if_pos hdead] at h
      simp only [Prod.mk.injEq] at h
      obtain ⟨hf, hm, hi⟩ := h
      subst hf
      subst hm
      subst hi
      refine ⟨le_refl i, by omega, by simp, ?_, ?_, ?_⟩
      · intro _
        exact Or.inr ⟨atual, pmMem_registraVisita_self _ _ _, hdead⟩
      · intro v hv
        exact pmMem_registraVisita_mono _ _ _ v hv
      · intro v _ hv
        exact pmLookup_registraVisita_of_mem _ _ _ v hv
    · rw [if_neg hdead] at h
      by_cases hfound : escolheVizinho rnd grafo atual i = vf
      · rw [if_pos hfound] at h
        simp only [Prod.mk.injEq] at h
        obtain ⟨hf, hm, hi⟩ := h
        subst hf
        subst hm
        subst hi
        refine ⟨by omega, by omega, ?_, by simp, ?_, ?_⟩
        · intro _
          refine ⟨by omega, atual, ?_⟩
          rw [hfound, pmLookup_pmSet_self]
        · intro v hv
          exact pmMem_pmSet_mono _ _ _ v (pmMem_registraVisita_mono _ _ _ v hv)
        · intro v hne hv
          rw [hfound, pmLookup_pmSet_ne _ _ _ v hne]
          exact pmLookup_registraVisita_of_mem _ _ _ v hv
      · rw [if_neg hfound] at h
        obtain ⟨h1, h2, h3, h4, h5, h6⟩ := ih _ _ _ _ _ _ _ h
        refine ⟨by omega, by omega, ?_, ?_, ?_, ?_⟩
        · intro hf
          obtain ⟨ha, hb⟩ := h3 hf
          exact ⟨by omega, hb⟩
        · intro hf
          rcases h4 hf with h' | h'
          · exact Or.inl (by omega)
          · exact Or.inr h'
        · intro v hv
          exact h5 v (pmMem_registraVisita_mono _ _ _ v hv)
        · intro v hne hv
          rw [h6 v hne (pmMem_registraVisita_mono _ _ _ v hv)]
          exact pmLookup_registraVisita_of_mem _ _ _ v hv

/-! ## The walk preserves the sorted shape of the map -/

/-- Invariant tying the walk's moving state `(m, atual, antecessor)` to the
walk's origin `start` and target `vf` (valid whenever `start ≠ vf`): the map
is a well-formed record of the walk so far. -/
structure WalkInv (grafo : Graph) (start vf : Nat) (m : PredMap)
    (atual : Nat) (antecessor : Option Nat) : Prop where
  nodup : (pmKeys m).Nodup
  sorted : sortedPred m
  noneStart : ∀ p ∈ m, p.2 = none → p.1 = start
  adjEntry : ∀ p ∈ m, ∀ u, p.2 = some u → p.1 ∈ vizinhosDe grafo u
  antNone : antecessor = none → atual = start
  antKey : ∀ u, antecessor = some u → pmMem m u = true
  antAdj : ∀ u, antecessor = some u → atual ∈ vizinhosDe grafo u
  tgtNotMem : pmMem m vf = false
  atualNe : atual ≠ vf
  startNe : start ≠ vf
  startNone : m ≠ [] → pmLookup m start = some none

theorem registraVisita_preserves (grafo : Graph) (start vf : Nat) (m : PredMap)
    (atual : Nat) (antecessor : Option Nat)
    (inv : WalkInv grafo start vf m atual antecessor) :
    (pmKeys (registraVisita m atual antecessor)).Nodup ∧
    sortedPred (registraVisita m atual antecessor) ∧
    (∀ p ∈ registraVisita m atual antecessor, p.2 = none → p.1 = start) ∧
    (∀ p ∈ registraVisita m atual antecessor, ∀ u, p.2 = some u →
      p.1 ∈ vizinhosDe grafo u) ∧
    pmMem (registraVisita m atual antecessor) vf = false ∧
    registraVisita m atual antecessor ≠ [] ∧
    pmLookup (registraVisita m atual antecessor) start = some none ∧
    pmMem (registraVisita m atual antecessor) atual = true := by
  by_cases hmem : pmMem m atual = true
  · have hne : m ≠ [] := by
      intro hnil
      subst hnil
      rw [pmMem, pmLookup] at hmem
      simp [List.lookup] at hmem
    unfold registraVisita
    rw [if_pos hmem]
    exact ⟨inv.nodup, inv.sorted, inv.noneStart, inv.adjEntry, inv.tgtNotMem,
      hne, inv.startNone hne, hmem⟩
  · have hmem' : pmMem m atual = false := by simpa using hmem
    have hset : pmSet m atual antecessor = m ++ [(atual, antecessor)] :=
      pmSet_of_not_mem m atual antecessor hmem'
    have h1 : (pmKeys (pmSet m atual antecessor)).Nodup := by
      rw [hset]
      exact nodup_keys_append m atual antecessor inv.nodup hmem'
    have h2 : sortedPred (pmSet m atual antecessor) := by
      rw [hset]
      exact sortedPred_append m atual antecessor inv.sorted
        (fun u hu => (pmMem_iff_mem_keys m u).mp (inv.antKey u hu))
    have h3 : ∀ p ∈ pmSet m atual antecessor, p.2 = none → p.1 = start := by
      rw [hset]
      intro p hp hpn
      rcases List.mem_append.mp hp with hp1 | hp1
      · exact inv.noneStart p hp1 hpn
      · rw [List.mem_singleton] at hp1
        subst hp1
        exact inv.antNone hpn
    have h4 : ∀ p ∈ pmSet m atual antecessor, ∀ u, p.2 = some u →
        p.1 ∈ vizinhosDe grafo u := by
      rw [hset]
      intro p hp u hpu
      rcases List.mem_append.mp hp with hp1 | hp1
      · exact inv.adjEntry p hp1 u hpu
      · rw [List.mem_singleton] at hp1
        subst hp1
        exact inv.antAdj u hpu
    have h5 : pmMem (pmSet m atual antecessor) vf = false := by
      rw [pmMem,
        pmLookup_pmSet_ne m atual antecessor vf (fun hh => inv.atualNe hh.symm)]
      exact inv.tgtNotMem
    have h6 : pmSet m atual antecessor ≠ [] := by
      rw [hset]
      simp
    have h7 : pmLookup (pmSet m atual antecessor) start = some none := by
      by_cases hnil : m = []
      · subst hnil
        have hant : antecessor = none := by
          cases hant : antecessor with
          | none => rfl
          | some u =>
            have hk := inv.antKey u hant
            rw [pmMem, pmLookup] at hk
            simp [List.lookup] at hk
        have hst : atual = start := inv.antNone hant
        subst hst
        rw [hant, pmLookup_pmSet_self]
      · have hlk : pmLookup m start = some none := inv.startNone hnil
        have hsm : pmMem m start = true := by
          rw [pmMem, hlk]
          rfl
        have hne2 : start ≠ atual := by
          intro hh
          subst hh
          rw [hsm] at hmem'
          exact Bool.noConfusion hmem'
        rw [pmLookup_pmSet_ne m atual antecessor start hne2]
        exact hlk
    have h8 : pmMem (pmSet m atual antecessor) atual = true := by
      rw [pmMem, pmLookup_pmSet_self]
      rfl
    unfold registraVisita
    rw [if_neg hmem]
    exact ⟨h1, h2, h3, h4, h5, h6, h7, h8⟩


theorem random_walk_aux_inv (rnd : Nat → Nat) (grafo : Graph) (start vf : Nat) :
    ∀ fuel m atual antecessor i found m' i',
      WalkInv grafo start vf m atual antecessor →
      random_walk_aux rnd grafo vf fuel m atual antecessor i =
        (found, m', i') →
      (pmKeys m').Nodup ∧ sortedPred m' ∧
      (∀ p ∈ m', p.2 = none → p.1 = start) ∧
      (∀ p ∈ m', ∀ u, p.2 = some u → p.1 ∈ vizinhosDe grafo u) ∧
      ((m ≠ [] ∨ fuel ≠ 0) → pmLookup m' start = some none) := by
  intro fuel
  induction fuel with
  | zero =>
    intro m atual antecessor i found m' i' inv h
    simp only [random_walk_aux, Prod.mk.injEq] at h
    obtain ⟨_, hm, _⟩ := h
    subst hm
    refine ⟨inv.nodup, inv.sorted, inv.noneStart, inv.adjEntry, ?_⟩
    rintro (hne | hf)
    · exact inv.startNone hne
    · exact absurd rfl hf
  | succ f ih =>
    intro m atual antecessor i found m' i' inv h
    obtain ⟨p1, p2, p3, p4, p5, p6, p7, p8⟩ :=
      registraVisita_preserves grafo start vf m atual antecessor inv
    simp only [random_walk_aux] at h
    by_cases hdead : vizinhosDe grafo atual = []
    · rw [if_pos hdead] at h
      simp only [Prod.mk.injEq] at h
      obtain ⟨_, hm, _⟩ := h
      subst hm
      exact ⟨p1, p2, p3, p4, fun _ => p7⟩
    · rw [if_neg hdead] at h
      by_cases hfound : escolheVizinho rnd grafo atual i = vf
      · rw [if_pos hfound, hfound] at h
        simp only [Prod.mk.injEq] at h
        obtain ⟨_, hm, _⟩ := h
        subst hm
        have hset : pmSet (registraVisita m atual antecessor) vf (some atual) =
            registraVisita m atual antecessor ++ [(vf, some atual)] :=
          pmSet_of_not_mem _ vf (some atual) p5
        refine ⟨?_, ?_, ?_, ?_, ?_⟩
        · rw [hset]
          exact nodup_keys_append _ vf (some atual) p1 p5
        · rw [hset]
          refine sortedPred_append _ vf (some atual) p2 ?_
          intro u hu
          rw [Option.some.injEq] at hu
          subst hu
          exact (pmMem_iff_mem_keys _ atual).mp p8
        · rw [hset]
          intro p hp hpn
          rcases List.mem_append.mp hp with hp1 | hp1
          · exact p3 p hp1 hpn
          · rw [List.mem_singleton] at hp1
            subst hp1
            exact absurd hpn (by simp)
        · rw [hset]
          intro p hp u hpu
          rcases List.mem_append.mp hp with hp1 | hp1
          · exact p4 p hp1 u hpu
          · rw [List.mem_singleton] at hp1
            subst hp1
            simp only at hpu
            rw [Option.some.injEq] at hpu
            subst hpu
            show vf ∈ vizinhosDe grafo atual
            rw [← hfound]
            exact escolheVizinho_mem rnd grafo atual i hdead
        · intro _
          rw [pmLookup_pmSet_ne _ vf (some atual) start inv.startNe]
          exact p7
      · rw [if_neg hfound] at h
        have inv' : WalkInv grafo start vf (registraVisita m atual antecessor)
            (escolheVizinho rnd grafo atual i) (some atual) := by
          refine ⟨p1, p2, p3, p4, ?_, ?_, ?_, p5, hfound, inv.startNe, fun _ => p7⟩
          · intro hh
            exact absurd hh (by simp)
          · intro u hu
            rw [Option.some.injEq] at hu
            subst hu
            exact p8
          · intro u hu
            rw [Option.some.injEq] at hu
            subst hu
            exact escolheVizinho_mem rnd grafo atual i hdead
        obtain ⟨q1, q2, q3, q4, q5⟩ := ih _ _ _ _ _ _ _ inv' h
        exact ⟨q1, q2, q3, q4, fun _ => q5 (Or.inl p6)⟩

/-! ## The loop equations of `random_walk`, and shared run lemmas -/

theorem random_walk_stop (rnd : Nat → Nat) (m : PredMap) (grafo : Graph)
    (atual : Nat) (antecessor : Option Nat) (vf i n : Nat)
    (h : ¬ i < 2 * n ^ 3) :
    random_walk rnd m grafo atual antecessor vf i n = (false, m, i) := by
  unfold random_walk
  have hf : 2 * n ^ 3 - i = 0 := by omega
  rw [hf]
  rfl

theorem random_walk_step (rnd : Nat → Nat) (m : PredMap) (grafo : Graph)
    (atual : Nat) (antecessor : Option Nat) (vf i n : Nat)
    (h : i < 2 * n ^ 3) :
    random_walk rnd m grafo atual antecessor vf i n =
      if vizinhosDe grafo atual = [] then
        (false, registraVisita m atual antecessor, i)
      else if escolheVizinho rnd grafo atual i = vf then
        (true,
          pmSet (registraVisita m atual antecessor)
            (escolheVizinho rnd grafo atual i) (some atual),
          i + 1)
      else
        random_walk rnd (registraVisita m atual antecessor) grafo
          (escolheVizinho rnd grafo atual i) (some atual) vf (i + 1) n := by
  unfold random_walk
  have hf : 2 * n ^ 3 - i = (2 * n ^ 3 - (i + 1)) + 1 := by omega
  rw [hf]
  rfl

/-- The initial state of a walk between distinct endpoints satisfies the
invariant. -/
theorem initialWalkInv (grafo : Graph) (start vf : Nat) (hne : start ≠ vf) :
    WalkInv grafo start vf [] start none := by
  refine ⟨by simp [pmKeys], sortedPred_nil, by simp, by simp, fun _ => rfl,
    ?_, ?_, rfl, hne, hne, fun hh => absurd rfl hh⟩
  · intro u hu
    exact absurd hu (by simp)
  · intro u hu
    exact absurd hu (by simp)

/-- A query whose (in-range) start vertex has no neighbours dead-ends on the
very first loop pass and reports `(false, [], 0)`. -/
theorem dead_end_run (rnd : Nat → Nat) (grafo : Graph) (vi vf : Int)
    (h0 : 0 ≤ vi) (h1 : vi < (grafo.length : Int)) (h2 : 0 ≤ vf)
    (h3 : vf < (grafo.length : Int)) (hdead : vizinhosDe grafo vi.toNat = []) :
    existe_caminho rnd grafo vi vf = some (false, [], 0) := by
  have hcond : ¬(vi < 0 ∨ vi ≥ (grafo.length : Int) ∨ vf < 0 ∨
      vf ≥ (grafo.length : Int)) := by omega
  have hn : 0 < grafo.length := by omega
  have hcap : (0 : Nat) < 2 * grafo.length ^ 3 := by
    have := Nat.one_le_pow 3 grafo.length hn
    omega
  have hwalk : random_walk rnd [] grafo vi.toNat none vf.toNat 0 grafo.length =
      (false, registraVisita [] vi.toNat none, 0) := by
    rw [random_walk_step rnd [] grafo vi.toNat none vf.toNat 0 grafo.length hcap,
      if_pos hdead]
  unfold existe_caminho
  rw [if_neg hcond, hwalk]

/-! ## Claim theorems -/

/-- C2: for any graph and any out-of-range start or target index,
`existe_caminho` returns exactly `(false, [], 0)`, for every random source
(hence deterministically) and regardless of the graph's contents; the guard
returns before any walk is attempted. -/
theorem existe_caminho_out_of_range (rnd : Nat → Nat) (grafo : Graph)
    (vi vf : Int)
    (h : vi < 0 ∨ vi ≥ (grafo.length : Int) ∨ vf < 0 ∨
      vf ≥ (grafo.length : Int)) :
    existe_caminho rnd grafo vi vf = some (false, [], 0) := by
  unfold existe_caminho
  rw [if_pos h]

theorem existe_caminho_out_of_range_witness :
    ((-1 : Int) < 0 ∨ (-1 : Int) ≥ (([[0, 1], [1, 0]] : Graph).length : Int) ∨
      (0 : Int) < 0 ∨ (0 : Int) ≥ (([[0, 1], [1, 0]] : Graph).length : Int)) ∧
    existe_caminho (fun _ => 0) [[0, 1], [1, 0]] (-1) 0 = some (false, [], 0) :=
  ⟨by decide,
    existe_caminho_out_of_range (fun _ => 0) [[0, 1], [1, 0]] (-1) 0 (by decide)⟩

/-- C5: a dead end (current vertex with no neighbours) makes `random_walk`
return immediately with `false`, the map built so far (the current vertex has
just been recorded) and the unchanged iteration counter; consequently a query
from an isolated in-range start vertex to a different in-range target returns
`(false, [], 0)`. -/
theorem random_walk_dead_end (rnd : Nat → Nat) (grafo : Graph) :
    (∀ m atual antecessor vf i n, vizinhosDe grafo atual = [] →
      i < 2 * n ^ 3 →
      random_walk rnd m grafo atual antecessor vf i n =
        (false, registraVisita m atual antecessor, i)) ∧
    (∀ vi vf : Int, 0 ≤ vi → vi < (grafo.length : Int) → 0 ≤ vf →
      vf < (grafo.length : Int) → vi ≠ vf → vizinhosDe grafo vi.toNat = [] →
      existe_caminho rnd grafo vi vf = some (false, [], 0)) := by
  constructor
  · intro m atual antecessor vf i n hdead hcap
    rw [random_walk_step rnd m grafo atual antecessor vf i n hcap, if_pos hdead]
  · intro vi vf h0 h1 h2 h3 _ hdead
    exact dead_end_run rnd grafo vi vf h0 h1 h2 h3 hdead

theorem random_walk_dead_end_witness :
    random_walk (fun _ => 0) [] [[0]] 0 none 1 0 1 =
      (false, registraVisita [] 0 none, 0) ∧
    existe_caminho (fun _ => 0) [[0, 0], [1, 0]] 0 1 = some (false, [], 0) :=
  ⟨(random_walk_dead_end (fun _ => 0) [[0]]).1 [] 0 none 1 0 1
      (by decide) (by decide),
    (random_walk_dead_end (fun _ => 0) [[0, 0], [1, 0]]).2 0 1
      (by decide) (by decide) (by decide) (by decide) (by decide) (by decide)⟩

/-- C7: `reconstruir_caminho` follows predecessor links from the target until
the sentinel, collecting and finally reversing; when the target is absent from
the map the very first lookup yields the sentinel, so the result is the
one-element path `[target]`. -/
theorem reconstruir_caminho_absent (m : PredMap) (t : Nat)
    (h : pmMem m t = false) : reconstruir_caminho m t = some [t] := by
  unfold reconstruir_caminho
  rw [reconstruirLoop, pmGet_of_not_mem m t h, reconstruirLoop_none]
  rfl

theorem reconstruir_caminho_absent_witness :
    reconstruir_caminho [(0, some 1)] 2 = some [2] :=
  reconstruir_caminho_absent [(0, some 1)] 2 (by decide)

/-- C6: throughout a walk the predecessor map is first-visit-wins: the entry
of any vertex other than the target present when the walk starts (hence, by
instantiating `m` with any intermediate state, at any point of the walk) is
unchanged in the returned map; the single exception is the target, whose entry
is (over)written with the current vertex when the walk reports `found`. -/
theorem random_walk_first_visit_wins (rnd : Nat → Nat) (m : PredMap)
    (grafo : Graph) (atual : Nat) (antecessor : Option Nat) (vf i n : Nat)
    (found : Bool) (m' : PredMap) (i' : Nat)
    (hw : random_walk rnd m grafo atual antecessor vf i n = (found, m', i')) :
    (∀ v, v ≠ vf → pmMem m v = true → pmLookup m' v = pmLookup m v) ∧
    (found = true → ∃ u, pmLookup m' vf = some (some u)) := by
  unfold random_walk at hw
  obtain ⟨_, _, h3, _, _, h6⟩ :=
    random_walk_aux_basic rnd grafo vf _ _ _ _ _ _ _ _ hw
  exact ⟨h6, fun hf => (h3 hf).2⟩

theorem random_walk_first_visit_wins_witness :
    (∀ v, v ≠ 1 → pmMem [(5, some 7)] v = true →
      pmLookup [(5, some 7), (0, none), (1, some 0)] v =
        pmLookup [(5, some 7)] v) ∧
    (true = true → ∃ u,
      pmLookup [(5, some 7), (0, none), (1, some 0)] 1 = some (some u)) :=
  random_walk_first_visit_wins (fun _ => 0) [(5, some 7)] [[0, 1], [1, 0]]
    0 none 1 0 2 true [(5, some 7), (0, none), (1, some 0)] 1 (by decide)

/-- C8: a walk started with counter 0 never drives the counter beyond the cap
`2*n^3` (it adds exactly 1 per neighbour transition), and a `false` result is
either a cap exhaustion with counter exactly `2*n^3` or a dead end at some
visited vertex. -/
theorem random_walk_cap (rnd : Nat → Nat) (m : PredMap) (grafo : Graph)
    (atual : Nat) (antecessor : Option Nat) (vf n : Nat)
    (found : Bool) (m' : PredMap) (i' : Nat)
    (hw : random_walk rnd m grafo atual antecessor vf 0 n = (found, m', i')) :
    i' ≤ 2 * n ^ 3 ∧
    (found = false →
      i' = 2 * n ^ 3 ∨ ∃ v, pmMem m' v = true ∧ vizinhosDe grafo v = []) := by
  unfold random_walk at hw
  obtain ⟨_, h2, _, h4, _, _⟩ :=
    random_walk_aux_basic rnd grafo vf _ _ _ _ _ _ _ _ hw
  constructor
  · omega
  · intro hf
    rcases h4 hf with h' | h'
    · exact Or.inl (by omega)
    · exact Or.inr h'

theorem random_walk_cap_witness :
    (0 : Nat) ≤ 2 * 1 ^ 3 ∧
    (false = false → (0 : Nat) = 2 * 1 ^ 3 ∨
      ∃ v, pmMem [(0, none)] v = true ∧ vizinhosDe [[0]] v = []) :=
  random_walk_cap (fun _ => 0) [] [[0]] 0 none 1 1 false [(0, none)] 0
    (by decide)

/-- Any `found = true` return of the walk strictly increases the counter:
the target test on line 92 only runs after the increment on line 91. -/
theorem walk_found_increases (rnd : Nat → Nat) (m : PredMap) (grafo : Graph)
    (atual : Nat) (antecessor : Option Nat) (vf i n : Nat) (m' : PredMap)
    (i' : Nat)
    (hw : random_walk rnd m grafo atual antecessor vf i n = (true, m', i')) :
    i < i' := by
  unfold random_walk at hw
  obtain ⟨-, -, h3, -, -, -⟩ :=
    random_walk_aux_basic rnd grafo vf _ _ _ _ _ _ _ _ hw
  exact (h3 rfl).1

/-- Any successful `existe_caminho` result carries a positive iteration
count, for every pair of endpoints (equal or not, in range or not). -/
theorem found_run_positive (rnd : Nat → Nat) (grafo : Graph) (vi vf : Int)
    (p : List Nat) (it : Nat)
    (h : existe_caminho rnd grafo vi vf = some (true, p, it)) : 0 < it := by
  unfold existe_caminho at h
  by_cases hcond : vi < 0 ∨ vi ≥ (grafo.length : Int) ∨ vf < 0 ∨
      vf ≥ (grafo.length : Int)
  · rw [if_pos hcond] at h
    simp at h
  · rw [if_neg hcond] at h
    rcases hw : random_walk rnd [] grafo vi.toNat none vf.toNat 0 grafo.length
      with ⟨found, m', i'⟩
    rw [hw] at h
    cases found with
    | false => simp at h
    | true =>
      have hpos : 0 < i' :=
        walk_found_increases rnd [] grafo vi.toNat none vf.toNat 0
          grafo.length m' i' hw
      cases hrec : reconstruir_caminho m' vf.toNat with
      | none => simp [hrec] at h
      | some q =>
        simp only [hrec, Option.some.injEq, Prod.mk.injEq] at h
        omega

/-- C10: whenever `random_walk` reports `found = true` the returned counter
strictly exceeds the caller-supplied starting counter (the target is only
reached by taking a transition, which increments the counter first), and
consequently `existe_caminho` never returns `found = true` with 0 iterations. -/
theorem random_walk_found_positive (rnd : Nat → Nat) :
    (∀ (m : PredMap) (grafo : Graph) (atual : Nat) (antecessor : Option Nat)
      (vf i n : Nat) (m' : PredMap) (i' : Nat),
      random_walk rnd m grafo atual antecessor vf i n = (true, m', i') →
      i < i') ∧
    (∀ (grafo : Graph) (vi vf : Int) (p : List Nat) (it : Nat),
      existe_caminho rnd grafo vi vf = some (true, p, it) → 0 < it) :=
  ⟨fun m grafo atual antecessor vf i n m' i' hw =>
      walk_found_increases rnd m grafo atual antecessor vf i n m' i' hw,
    fun grafo vi vf p it h => found_run_positive rnd grafo vi vf p it h⟩

theorem random_walk_found_positive_witness :
    ((0 : Nat) < 1) ∧ ((0 : Nat) < 1) :=
  ⟨(random_walk_found_positive (fun _ => 0)).1 [] [[0, 1], [1, 0]] 0 none 1 0 2
      [(0, none), (1, some 0)] 1 (by decide),
    (random_walk_found_positive (fun _ => 0)).2 [[0, 1], [1, 0]] 0 1 [0, 1] 1
      (by decide)⟩

/-- C4 (counterexample): for the one-vertex edgeless graph `[[0]]` the query
with `start = target = 0` does NOT return `(true, [0], 0)` — the walk
dead-ends before the target condition is ever examined, and the actual result
is `(false, [], 0)`. -/
theorem existe_caminho_self_not_special_cased :
    existe_caminho (fun _ => 0) [[0]] 0 0 ≠ some (true, [0], 0) := by
  decide

/-- C4 (amended): `existe_caminho` does not special-case `start = target`.
For every valid index `v` and every random source, the `(v, v)` query never
returns `(true, [v], 0)` and, more generally, never returns `found = true`
together with `iterations = 0` (the target test only runs after a counter
increment); when `v` additionally has no neighbours the query dead-ends on
the first pass and the result is `(false, [], 0)`. -/
theorem existe_caminho_self_dead_end (rnd : Nat → Nat) (grafo : Graph)
    (v : Int) (h0 : 0 ≤ v) (h1 : v < (grafo.length : Int)) :
    (vizinhosDe grafo v.toNat = [] →
      existe_caminho rnd grafo v v = some (false, [], 0)) ∧
    (∀ p it, existe_caminho rnd grafo v v = some (true, p, it) → it ≠ 0) ∧
    existe_caminho rnd grafo v v ≠ some (true, [v.toNat], 0) := by
  have hpos : ∀ p it, existe_caminho rnd grafo v v = some (true, p, it) →
      it ≠ 0 := by
    intro p it h
    have := found_run_positive rnd grafo v v p it h
    omega
  refine ⟨?_, hpos, ?_⟩
  · intro hdead
    exact dead_end_run rnd grafo v v h0 h1 h0 h1 hdead
  · intro h
    exact hpos [v.toNat] 0 h rfl

theorem existe_caminho_self_dead_end_witness :
    (vizinhosDe [[0]] ((0 : Int).toNat) = [] →
      existe_caminho (fun _ => 0) [[0]] 0 0 = some (false, [], 0)) ∧
    (∀ p it, existe_caminho (fun _ => 0) [[0]] 0 0 = some (true, p, it) →
      it ≠ 0) ∧
    existe_caminho (fun _ => 0) [[0]] 0 0 ≠
      some (true, [(0 : Int).toNat], 0) :=
  existe_caminho_self_dead_end (fun _ => 0) [[0]] 0 (by decide) (by decide)

/-- C3 (evaluation at the failing input): with `start = target = 0` on the
two-cycle graph, the walk reports `found` with the cyclic predecessor map
`{0: 1, 1: 0}`, and the reconstruction loop started at `0` never reaches the
sentinel for ANY amount of fuel — the Python `while atual is not None` loop
runs forever, so the query does not run to completion (`existe_caminho`
returns the divergence marker `none`). -/
theorem existe_caminho_self_cycle_diverges :
    existe_caminho (fun _ => 0) [[0, 1], [1, 0]] 0 0 = none ∧
    random_walk (fun _ => 0) [] [[0, 1], [1, 0]] 0 none 0 0 2 =
      (true, [(0, some 1), (1, some 0)], 2) ∧
    ∀ fuel acc,
      reconstruirLoop [(0, some 1), (1, some 0)] fuel (some 0) acc = none := by
  refine ⟨by decide, by decide, ?_⟩
  exact reconstruirLoop_two_cycle [(0, some 1), (1, some 0)] 0 1 rfl rfl

/-- C9: for a walk between distinct endpoints, started as `existe_caminho`
starts it (empty map, predecessor sentinel, counter 0), the returned
predecessor map is a tree rooted at the start vertex: every non-sentinel value
is itself a key, a key maps to the sentinel exactly when it is the start
vertex, and following predecessor links from any key reaches the sentinel in
finitely many steps (the reconstruction loop terminates on it). -/
theorem random_walk_tree_invariant (rnd : Nat → Nat) (grafo : Graph)
    (start vf n : Nat) (found : Bool) (m' : PredMap) (i' : Nat)
    (hn : 1 ≤ n) (hne : start ≠ vf)
    (hw : random_walk rnd [] grafo start none vf 0 n = (found, m', i')) :
    (∀ v u, pmLookup m' v = some (some u) → pmMem m' u = true) ∧
    (∀ v, pmLookup m' v = some none ↔ v = start) ∧
    (∀ v, pmMem m' v = true → (reconstruir_caminho m' v).isSome = true) := by
  unfold random_walk at hw
  obtain ⟨q1, q2, q3, q4, q5⟩ :=
    random_walk_aux_inv rnd grafo start vf _ _ _ _ _ _ _ _
      (initialWalkInv grafo start vf hne) hw
  have hfuel : 2 * n ^ 3 - 0 ≠ 0 := by
    have := Nat.one_le_pow 3 n (by omega)
    omega
  have hstart : pmLookup m' start = some none := q5 (Or.inr hfuel)
  refine ⟨?_, ?_, ?_⟩
  · intro v u hv
    exact (pmMem_iff_mem_keys m' u).mpr
      (sorted_value_mem m' v u q2 (pmLookup_mem m' v (some u) hv))
  · intro v
    constructor
    · intro hv
      exact q3 (v, none) (pmLookup_mem m' v none hv) rfl
    · intro hv
      subst hv
      exact hstart
  · intro v hv
    obtain ⟨idx, hidx, hkey⟩ :=
      mem_keys_get m' v ((pmMem_iff_mem_keys m' v).mp hv)
    obtain ⟨p, hp⟩ := reconstruirLoop_term m' q1 q2 idx hidx []
    rw [hkey] at hp
    unfold reconstruir_caminho
    rw [reconstruirLoop_mono m' (idx + 1 + 1) (m'.length + 1) (some v) [] p
      (by omega) hp]
    rfl

theorem random_walk_tree_invariant_witness :
    (∀ v u, pmLookup [(0, none), (1, some 0)] v = some (some u) →
      pmMem [(0, none), (1, some 0)] u = true) ∧
    (∀ v, pmLookup [(0, none), (1, some 0)] v = some none ↔ v = 0) ∧
    (∀ v, pmMem [(0, none), (1, some 0)] v = true →
      (reconstruir_caminho [(0, none), (1, some 0)] v).isSome = true) :=
  random_walk_tree_invariant (fun _ => 0) [[0, 1], [1, 0]] 0 1 2 true
    [(0, none), (1, some 0)] 1 (by decide) (by decide) (by decide)

/-- C1: any successful query between valid distinct endpoints returns a path
whose first element is the start index, whose last element is the target
index, and whose consecutive elements `path[k]`, `path[k+1]` satisfy
`grafo[path[k]][path[k+1]] = 1` — the path is a valid walk in the graph. -/
theorem existe_caminho_path_valid (rnd : Nat → Nat) (grafo : Graph)
    (vi vf : Int) (p : List Nat) (it : Nat)
    (hvi0 : 0 ≤ vi) (hvi1 : vi < (grafo.length : Int)) (hvf0 : 0 ≤ vf)
    (hvf1 : vf < (grafo.length : Int)) (hne : vi ≠ vf)
    (h : existe_caminho rnd grafo vi vf = some (true, p, it)) :
    p.head? = some vi.toNat ∧ p.getLast? = some vf.toNat ∧
    ∀ k, k + 1 < p.length →
      (grafo.getD (p.getD k 0) []).getD (p.getD (k + 1) 0) 0 = 1 := by
  have hcond : ¬(vi < 0 ∨ vi ≥ (grafo.length : Int) ∨ vf < 0 ∨
      vf ≥ (grafo.length : Int)) := by omega
  unfold existe_caminho at h
  rw [if_neg hcond] at h
  rcases hw : random_walk rnd [] grafo vi.toNat none vf.toNat 0 grafo.length
    with ⟨found, m', i'⟩
  rw [hw] at h
  cases found with
  | false => simp at h
  | true =>
    cases hrec : reconstruir_caminho m' vf.toNat with
    | none => simp [hrec] at h
    | some q =>
      simp only [hrec, Option.some.injEq, Prod.mk.injEq, true_and] at h
      obtain ⟨hq, -⟩ := h
      subst hq
      have hnatne : vi.toNat ≠ vf.toNat := by omega
      unfold random_walk at hw
      obtain ⟨q1, q2, q3, q4, -⟩ :=
        random_walk_aux_inv rnd grafo vi.toNat vf.toNat _ _ _ _ _ _ _ _
          (initialWalkInv grafo vi.toNat vf.toNat hnatne) hw
      obtain ⟨-, -, hb3, -, -, -⟩ :=
        random_walk_aux_basic rnd grafo vf.toNat _ _ _ _ _ _ _ _ hw
      obtain ⟨u, hu⟩ := (hb3 rfl).2
      unfold reconstruir_caminho at hrec
      obtain ⟨q', hh, hqeq, hhead, hlast, hgn, hchain⟩ :=
        reconstruirLoop_spec m' (m'.length + 1) vf.toNat [] q hrec
      rw [List.reverse_nil, List.append_nil] at hqeq
      subst hqeq
      refine ⟨?_, hlast, ?_⟩
      · rw [hhead, Option.some.injEq]
        cases q with
        | nil => simp at hhead
        | cons x rest =>
          have hx : hh = x := by
            rw [List.head?_cons, Option.some.injEq] at hhead
            exact hhead.symm
          subst hx
          cases rest with
          | nil =>
            rw [List.getLast?_singleton, Option.some.injEq] at hlast
            rw [hlast, pmGet, hu] at hgn
            simp at hgn
          | cons y rest2 =>
            have hlink : pmGet m' y = some hh := (List.chain'_cons.mp hchain).1
            have hentry : (y, some hh) ∈ m' :=
              pmLookup_mem m' y (some hh) (pmGet_eq_some_lookup m' y hh hlink)
            have hhkeys : hh ∈ pmKeys m' := sorted_value_mem m' y hh q2 hentry
            have hhmem : pmMem m' hh = true :=
              (pmMem_iff_mem_keys m' hh).mpr hhkeys
            cases hlx : pmLookup m' hh with
            | none =>
              rw [pmMem, hlx] at hhmem
              simp at hhmem
            | some w =>
              have hw0 : w = none := by
                rw [pmGet, hlx] at hgn
                simpa using hgn
              subst hw0
              exact q3 (hh, none) (pmLookup_mem m' hh none hlx) rfl
      · intro k hk
        have hck := List.chain'_iff_get.mp hchain k (by omega)
        have hentry : (q.get ⟨k + 1, by omega⟩,
            some (q.get ⟨k, by omega⟩)) ∈ m' :=
          pmLookup_mem m' _ _ (pmGet_eq_some_lookup m' _ _ hck)
        have hadj := q4 _ hentry _ rfl
        have hval := mem_vizinhosDe grafo _ _ hadj
        have e1 : q.getD k 0 = q.get ⟨k, by omega⟩ :=
          List.getD_eq_get q 0 (by omega)
        have e2 : q.getD (k + 1) 0 = q.get ⟨k + 1, by omega⟩ :=
          List.getD_eq_get q 0 (by omega)
        rw [e1, e2]
        exact hval

theorem existe_caminho_path_valid_witness :
    ([0, 1] : List Nat).head? = some ((0 : Int).toNat) ∧
    ([0, 1] : List Nat).getLast? = some ((1 : Int).toNat) ∧
    (∀ k, k + 1 < ([0, 1] : List Nat).length →
      ((([[0, 1], [1, 0]] : Graph).getD (([0, 1] : List Nat).getD k 0) []).getD
        (([0, 1] : List Nat).getD (k + 1) 0) 0 = 1)) :=
  existe_caminho_path_valid (fun _ => 0) [[0, 1], [1, 0]] 0 1 [0, 1] 1
    (by decide) (by decide) (by decide) (by decide) (by decide) (by decide)

/-- Complement to `existe_caminho_self_cycle_diverges`: for DISTINCT valid
endpoints every query does run to completion — the walk stops within the cap
and the reconstruction loop reaches the sentinel — so the divergence of the
reconstruction loop is confined to queries with `start = target`. -/
theorem existe_caminho_terminates_of_ne (rnd : Nat → Nat) (grafo : Graph)
    (vi vf : Int) (hvi0 : 0 ≤ vi) (hvi1 : vi < (grafo.length : Int))
    (hvf0 : 0 ≤ vf) (hvf1 : vf < (grafo.length : Int)) (hne : vi ≠ vf) :
    (existe_caminho rnd grafo vi vf).isSome = true := by
  have hcond : ¬(vi < 0 ∨ vi ≥ (grafo.length : Int) ∨ vf < 0 ∨
      vf ≥ (grafo.length : Int)) := by omega
  unfold existe_caminho
  rw [if_neg hcond]
  rcases hw : random_walk rnd [] grafo vi.toNat none vf.toNat 0 grafo.length
    with ⟨found, m', i'⟩
  cases found with
  | false => rfl
  | true =>
    have hnatne : vi.toNat ≠ vf.toNat := by omega
    unfold random_walk at hw
    obtain ⟨q1, q2, -, -, -⟩ :=
      random_walk_aux_inv rnd grafo vi.toNat vf.toNat _ _ _ _ _ _ _ _
        (initialWalkInv grafo vi.toNat vf.toNat hnatne) hw
    obtain ⟨-, -, hb3, -, -, -⟩ :=
      random_walk_aux_basic rnd grafo vf.toNat _ _ _ _ _ _ _ _ hw
    obtain ⟨u, hu⟩ := (hb3 rfl).2
    have hmem : pmMem m' vf.toNat = true := by
      rw [pmMem, hu]
      rfl
    obtain ⟨idx, hidx, hkey⟩ :=
      mem_keys_get m' vf.toNat ((pmMem_iff_mem_keys m' vf.toNat).mp hmem)
    obtain ⟨p, hp⟩ := reconstruirLoop_term m' q1 q2 idx hidx []
    rw [hkey] at hp
    have hrec : reconstruir_caminho m' vf.toNat = some p := by
      unfold reconstruir_caminho
      exact reconstruirLoop_mono m' (idx + 1 + 1) (m'.length + 1) _ _ _
        (by omega) hp
    simp [hrec]
